import Mathlib

/-!
Verification development for the DSA (data-structure analysis) core of the
poolalloc repository: the Steensgaard whole-module driver
(lib/DSA/Steensgaard.cpp) and the call-target finder (lib/DSA/CallTargets.cpp).

The DSGraph / DSNode machinery (union-find merging, scalar maps, node global
lists) is not part of the provided sources; those parts are modelled from the
specification (sections 3, 4.1, 4.2) and carry a doc comment saying so.  The
fixpoint driver, the callee-set computation, the call-target classification
and the textual report are translated from the C++ sources.
-/

/-! ## Union-find state, modelled from the spec

Functions and nodes are identified by natural numbers.  A `Unif` maps every
node to the representative of its equivalence class. -/

abbrev Fn := Nat
abbrev Node := Nat

/-- A unification state: each node is sent to the representative of its class.
Modelled from the spec (section 3.2): handles normalize by chasing forwarding
links; the spec licenses path compression, so we keep the state eagerly
compressed.  Offsets are omitted: every handle in the embedded scenarios sits
at offset zero and no folding arises. -/
abbrev Unif := Node → Node

/-- Modelled from the spec (section 4.1): after `merge u a b`, the nodes `a`
and `b` normalize to the same representative (the class of `b` is redirected
into the class of `a`), and every previously-equal pair stays equal. -/
def merge (u : Unif) (a b : Node) : Unif :=
  fun n => if u n = u b then u a else u n

/-- `Coarser v u` says the partition of `v` refines no pair apart that `u`
identified: every merge only coarsens the partition. -/
def Coarser (v u : Unif) : Prop :=
  ∀ x y : Node, u x = u y → v x = v y

/-! ## The Steensgaard module model

A `DSCallSite` is the call-site record of a DSGraph (section 3.4): the callee
is either a concrete function (direct call) or a node handle (indirect call),
and the record carries the return, vararg and argument handles. -/

structure DSCallSite where
  directCallee : Option Fn
  calleeNode : Node
  retNode : Node
  vaNode : Node
  argNodes : List Node
deriving DecidableEq

/-- The whole-module data the Steensgaard driver consumes.  `sites` is the
function-calls list of the spliced result graph; `addrNode` gives, for each
function whose address is taken, the node holding that address in its global
list (modelled from the spec, section 3.1 global list); `callable` is the
`functionIsCallable` ABI-compatibility oracle; `formals`, `retOf` and `vaOf`
describe where a callee keeps its formal parameters, return value and vararg
slot (the data `mergeInGraph` binds, spec section 4.2). -/
structure SteensModule where
  sites : List DSCallSite
  numFuncs : Nat
  isDeclaration : Fn → Bool
  addrNode : Fn → Option Node
  callable : DSCallSite → Fn → Bool
  formals : Fn → List Node
  retOf : Fn → Node
  vaOf : Fn → Node

/-- Modelled from the spec: `DSNode::addFullFunctionSet` collects the
functions of the globals list of the callee node, i.e. the functions whose
address node lies in the same equivalence class. -/
def fullFunctionSet (M : SteensModule) (u : Unif) (n : Node) : List Fn :=
  (List.range M.numFuncs).filter fun f =>
    match M.addrNode f with
    | some a => u a == u n
    | none => false

/-- The erase loop of `SteensgaardDataStructures::getAllCallees`: walk the
temporary callee list and erase every function that `functionIsCallable`
rejects for this site. -/
def eraseNonCallable (M : SteensModule) (cs : DSCallSite) : List Fn → List Fn
  | [] => []
  | f :: r =>
      if M.callable cs f then f :: eraseNonCallable M cs r
      else eraseNonCallable M cs r

/-- `SteensgaardDataStructures::getAllCallees`: a direct call contributes its
callee unless it is only a declaration; an indirect call contributes the full
function set of the callee node filtered by `functionIsCallable`. -/
def getAllCalleesSrc (M : SteensModule) (u : Unif) (cs : DSCallSite) : List Fn :=
  match cs.directCallee with
  | some f => if M.isDeclaration f then [] else [f]
  | none => eraseNonCallable M cs (fullFunctionSet M u cs.calleeNode)

/-- Modelled from the spec (section 4.3, step 4, stated in its own words, for
comparison with the source-derived `getAllCalleesSrc`): if direct, the
candidate set is the singleton of the called function minus declarations; if
indirect, the set of functions in the callee-node globals list filtered by the
`functionIsCallable` compatibility predicate. -/
def calleeSetSpec (M : SteensModule) (u : Unif) (cs : DSCallSite) : Finset Fn :=
  match cs.directCallee with
  | some f => if M.isDeclaration f then ∅ else {f}
  | none =>
      (List.range M.numFuncs).toFinset.filter fun f =>
        (match M.addrNode f with
         | some a => u a == u cs.calleeNode
         | none => false) = true ∧ M.callable cs f = true

/-- Modelled from the spec (section 4.2): `DSGraph::mergeInGraph` merges the
callee return handle with the call-site return handle, the vararg handles,
then pairwise the formal parameters with the actual arguments; trailing
extras on either side merge into the vararg handle. -/
def mergeInGraph (M : SteensModule) (u : Unif) (cs : DSCallSite) (f : Fn) : Unif :=
  let u1 := merge u (M.retOf f) cs.retNode
  let u2 := merge u1 (M.vaOf f) cs.vaNode
  let u3 := ((M.formals f).zip cs.argNodes).foldl (fun v p => merge v p.1 p.2) u2
  let extras := (M.formals f).drop cs.argNodes.length ++
                cs.argNodes.drop (M.formals f).length
  extras.foldl (fun v n => merge v n cs.vaNode) u3

/-- One call site of the fixpoint body: for every function in the callee set
computed for the site, if it is not a declaration, merge the callee bindings
into the graph (`runOnModuleInternal` inner loop). -/
def mergeSite (M : SteensModule) (u : Unif) (cs : DSCallSite) (fs : List Fn) : Unif :=
  fs.foldl (fun v f => if M.isDeclaration f then v else mergeInGraph M v cs f) u

/-- One full iteration of the fixpoint loop body of `runOnModuleInternal`:
`buildCallGraph` recomputes each callee set from the current graph, then the
body merges every site with every candidate callee. -/
def stepU (M : SteensModule) (u : Unif) : Unif :=
  M.sites.foldl (fun v cs => mergeSite M v cs (getAllCalleesSrc M u cs)) u

/-- The unification state after `i` executed iterations of the fixpoint body
(iteration 0 is the freshly spliced graph, where every node is its own
class). -/
def uAt (M : SteensModule) : Nat → Unif
  | 0 => id
  | i + 1 => stepU M (uAt M i)

/-- The callee set `CallGraph[cs]` as it stands after the i-th call to
`buildCallGraph`: initially empty (the map default-constructs empty sets),
afterwards the set `getAllCallees` computes from the current graph.  Content
equality of the `svset` containers is modelled by `Finset` equality. -/
def calleesAt (M : SteensModule) (i : Nat) (cs : DSCallSite) : Finset Fn :=
  match i with
  | 0 => ∅
  | j + 1 => (getAllCalleesSrc M (uAt M j) cs).toFinset

/-- The whole stored call graph after the i-th call to `buildCallGraph`, one
entry per call site in list order.  `buildCallGraph` reports `changed = false`
exactly when this list is unchanged from the previous iteration, which is
when the `while` loop of `runOnModuleInternal` exits. -/
def cgListAt (M : SteensModule) (i : Nat) : List (Finset Fn) :=
  M.sites.map (calleesAt M i)

/-- The finite universe every callee set lives in: the module functions
together with the direct callees recorded at the sites. -/
def funcUniv (M : SteensModule) : Finset Fn :=
  (List.range M.numFuncs).toFinset ∪
    (M.sites.filterMap (fun cs => cs.directCallee)).toFinset

/-- The total number of stored callee candidates after the i-th call to
`buildCallGraph`: the termination measure of the fixpoint loop. -/
def cgSize (M : SteensModule) (i : Nat) : Nat :=
  (M.sites.map fun cs => (calleesAt M i cs).card).sum

/-- `SteensgaardDataStructures::runOnModuleInternal`: run the fixpoint (a
bound sufficient for stabilization is used as fuel) and return `false`,
the LLVM pass protocol for leaving the module unmodified. -/
def runOnModuleInternal (M : SteensModule) : Unif × Bool :=
  (uAt M (M.sites.length * (funcUniv M).card + 1), false)

/-- `SteensgaardDataStructures::runOnModule` delegates to
`runOnModuleInternal`; the embedding is a pure function of the module, so the
module itself is untouched by construction. -/
def steensRunOnModule (M : SteensModule) : Unif × Bool :=
  runOnModuleInternal M

/-! ## The fp2.ll module

Node numbering of the spliced local graphs of fp2.ll:
0 = alloca node of main mval, 1 = scalar node of main mval2,
2 = node holding the address of foo (globals list contains foo),
3 = formal fp of call, 4 = formal arg of call, 5 = cval of call,
6 = fval of foo (also the return node of foo), 7 = dummy return node of main
(non-pointer return), 9-13 = vararg slots, 8 = unused callee-node slot of the
direct site.  Functions: 0 = call, 1 = main, 2 = foo. -/

def fp2cs1 : DSCallSite :=
  { directCallee := some 0, calleeNode := 8, retNode := 1, vaNode := 12,
    argNodes := [2, 0] }

def fp2cs2 : DSCallSite :=
  { directCallee := none, calleeNode := 3, retNode := 5, vaNode := 13,
    argNodes := [4] }

def fp2 : SteensModule where
  sites := [fp2cs1, fp2cs2]
  numFuncs := 3
  isDeclaration := fun _ => false
  addrNode := fun f => if f = 2 then some 2 else none
  callable := fun _ _ => true
  formals := fun f => if f = 0 then [3, 4] else if f = 2 then [6] else []
  retOf := fun f => if f = 0 then 5 else if f = 2 then 6 else 7
  vaOf := fun f => if f = 0 then 9 else if f = 2 then 10 else 11

/-- The scalar-map values of fp2.ll the test predicates mention. -/
inductive Fp2Val
  | mval
  | mval2
  | cval
  | fval
deriving DecidableEq

/-- The scalar map of the spliced fp2 graph, restricted to the values the
check-same-node directives name. -/
def fp2scalar : Fp2Val → Node
  | .mval => 0
  | .mval2 => 1
  | .cval => 5
  | .fval => 6

/-! ## The call-target finder (lib/DSA/CallTargets.cpp)

A `CTSite` packages what `findIndTargets` observes about one call or invoke
instruction: the outcomes of the `isa` tests on the called value, the result
of `getCalledFunction` and of `stripPointerCasts`, the enclosing caller, the
callee list the DS call graph reports for the site, and the Incomplete and
External flags of the DS node of the called value. -/

structure CTSite where
  id : Nat
  isUndef : Bool
  isAsm : Bool
  calledFunction : Option Fn
  strippedFn : Option Fn
  strippedIsNull : Bool
  caller : Fn
  cgCallees : List Fn
  nodeIncomplete : Bool
  nodeExternal : Bool
deriving DecidableEq

/-- The DS call-graph context `findIndTargets` queries: SCC membership,
SCC leaders, and presence in the scalar map of the globals graph (the
`SM.find` test).  These live in DSCallGraph and DSGraph, which are not part
of the provided sources; modelled from the spec (sections 3.5 and 4.4). -/
structure CTEnv where
  scc : Fn → List Fn
  sccLeader : Fn → Fn
  inSM : Fn → Bool

/-- The pass state of `CallTargetFinder`: the visited sites, the four
statistics counters, the `IndMap` association (keyed by call site, insertion
ordered) and the `CompleteSites` set (kept as a duplicate-free list). -/
structure CTState where
  allSites : List Nat
  dirCall : Nat
  indCall : Nat
  completeInd : Nat
  completeEmpty : Nat
  indMap : List (CTSite × List Fn)
  completeSites : List Nat
deriving DecidableEq

/-- The empty initial state of a `CallTargetFinder` run. -/
def ct0 : CTState :=
  { allSites := [], dirCall := 0, indCall := 0, completeInd := 0,
    completeEmpty := 0, indMap := [], completeSites := [] }

/-- Lookup of the `IndMap` entry of a site id. -/
def indLookup (m : List (CTSite × List Fn)) (i : Nat) : Option (List Fn) :=
  match m with
  | [] => none
  | e :: r => if e.1.id = i then some e.2 else indLookup r i

/-- The effect of pushing `fs` one by one into `IndMap[s]`: append to the
entry of the site if present, otherwise create it (the map `operator[]`
default-constructs). -/
def indAppend (m : List (CTSite × List Fn)) (s : CTSite) (fs : List Fn) :
    List (CTSite × List Fn) :=
  match m with
  | [] => [(s, fs)]
  | e :: r => if e.1.id = s.id then (e.1, e.2 ++ fs) :: r else e :: indAppend r s fs

/-- `CompleteSites.insert`: set insertion modelled on a duplicate-free list. -/
def csInsert (l : List Nat) (i : Nat) : List Nat :=
  if l.contains i then l else l ++ [i]

/-- The members of the SCC of `f` that pass the scalar-map presence test, in
SCC order (the inner loops of the indirect branch of `findIndTargets`). -/
def sccInSM (E : CTEnv) (f : Fn) : List Fn :=
  (E.scc f).filter E.inSM

/-- The candidate list `findIndTargets` pushes into `IndMap[cs]` for an
indirect site: the SCC expansion of every callee the DS call graph reports,
followed by the SCC of the leader of the enclosing caller, each filtered by
scalar-map presence. -/
def indCandidates (E : CTEnv) (s : CTSite) : List Fn :=
  s.cgCallees.foldl (fun acc g => acc ++ sccInSM E g) [] ++
    sccInSM E (E.sccLeader s.caller)

/-- The concrete function a direct site calls: `getCalledFunction` when it
answers, otherwise the function uncovered by `stripPointerCasts`. -/
def theCF (s : CTSite) : Fn :=
  match s.calledFunction with
  | some f => f
  | none => s.strippedFn.getD 0

/-- The body of the instruction loop of `CallTargetFinder::findIndTargets`
for one call site, translated branch by branch from the source: push the
site, skip undef and inline-asm called values, recover a concrete callee
through casts, classify null callees as trivial direct calls, and resolve
indirect sites through the DS call graph with the completeness test on the
node flags. -/
def processSite (E : CTEnv) (st : CTState) (s : CTSite) : CTState :=
  let st := { st with allSites := st.allSites ++ [s.id] }
  if s.isUndef then st
  else if s.isAsm then st
  else
    match s.calledFunction, s.strippedFn with
    | none, none =>
        if s.strippedIsNull then
          { st with dirCall := st.dirCall + 1,
                    completeSites := csInsert st.completeSites s.id }
        else
          let cands := indCandidates E s
          let entry := (indLookup st.indMap s.id).getD [] ++ cands
          let st := { st with indCall := st.indCall + 1,
                              indMap := indAppend st.indMap s cands }
          let st :=
            if !s.nodeIncomplete && !s.nodeExternal && !entry.isEmpty then
              { st with completeSites := csInsert st.completeSites s.id,
                        completeInd := st.completeInd + 1 }
            else st
          if !s.nodeIncomplete && !s.nodeExternal && entry.isEmpty then
            { st with completeEmpty := st.completeEmpty + 1 }
          else st
    | _, _ =>
        { st with dirCall := st.dirCall + 1,
                  indMap := indAppend st.indMap s [theCF s],
                  completeSites := csInsert st.completeSites s.id }

/-- `CallTargetFinder::findIndTargets`: fold the per-site body over the call
and invoke instructions of the module in program order, starting from the
empty state. -/
def findIndTargets (E : CTEnv) (ss : List CTSite) : CTState :=
  ss.foldl (processSite E) ct0

/-- One emitted line of the textual report: the star marker, the reported
site, and the candidate functions of its entry. -/
structure PrintLine where
  starred : Bool
  site : Nat
  fns : List Fn
deriving DecidableEq

/-- `CallTargetFinder::print`: walk `IndMap`, skip entries whose call site
has a concrete called function (directly or after cast stripping), and emit
one line per surviving entry, starred when the site is not complete.
`isComplete` is membership in `CompleteSites` (the query interface of the
pass, modelled from the spec, section 6). -/
def printLines (st : CTState) : List PrintLine :=
  st.indMap.filterMap fun e =>
    if e.1.calledFunction.isSome then none
    else if e.1.strippedFn.isSome then none
    else some { starred := !(st.completeSites.contains e.1.id),
                site := e.1.id, fns := e.2 }

/-- `CallTargetFinder::runOnModule`: run `findIndTargets` and return `false`
(the pass leaves the module unmodified; the embedding is a pure function of
its inputs). -/
def ctfRunOnModule (E : CTEnv) (ss : List CTSite) : CTState × Bool :=
  (findIndTargets E ss, false)

/-! ## Site classification helpers used by the theorems -/

/-- A site the finder skips before any classification: undef or inline asm. -/
def skipB (s : CTSite) : Bool :=
  s.isUndef || s.isAsm

/-- A direct site: a concrete function is called, possibly behind casts. -/
def directB (s : CTSite) : Bool :=
  !skipB s && (s.calledFunction.isSome || s.strippedFn.isSome)

/-- A null-callee site: no concrete function, the stripped value is null. -/
def nullB (s : CTSite) : Bool :=
  !skipB s && s.calledFunction.isNone && s.strippedFn.isNone && s.strippedIsNull

/-- A genuinely indirect site. -/
def indirB (s : CTSite) : Bool :=
  !skipB s && s.calledFunction.isNone && s.strippedFn.isNone && !s.strippedIsNull

/-- The sites that receive an `IndMap` entry: direct and indirect ones. -/
def entering (s : CTSite) : Bool :=
  directB s || indirB s

/-- The `IndMap` entry a fresh site receives. -/
def entryOf (E : CTEnv) (s : CTSite) : List Fn :=
  if directB s then [theCF s] else indCandidates E s

/-- The sites inserted into `CompleteSites`: direct sites, null sites, and
indirect sites whose node is neither Incomplete nor External with a
non-empty candidate list. -/
def completing (E : CTEnv) (s : CTSite) : Bool :=
  directB s || nullB s ||
    (indirB s && !s.nodeIncomplete && !s.nodeExternal &&
      !(indCandidates E s).isEmpty)

/-- The report line an indirect site produces when the initial state is
empty: starred exactly when the completeness test failed for it. -/
def lineOf (E : CTEnv) (s : CTSite) : PrintLine :=
  { starred := !(!s.nodeIncomplete && !s.nodeExternal &&
                  !(indCandidates E s).isEmpty),
    site := s.id, fns := indCandidates E s }

/-! ## Concrete data for witnesses and counterexamples -/

/-- A one-function-per-SCC call-graph context with every function present in
the scalar map. -/
def cenv : CTEnv :=
  { scc := fun f => [f], sccLeader := fun f => f, inSM := fun _ => true }

/-- A plain direct call site. -/
def dsite : CTSite :=
  { id := 0, isUndef := false, isAsm := false, calledFunction := some 0,
    strippedFn := some 0, strippedIsNull := false, caller := 1,
    cgCallees := [], nodeIncomplete := false, nodeExternal := false }

/-- A call site whose called value is undef. -/
def usite : CTSite :=
  { id := 0, isUndef := true, isAsm := false, calledFunction := none,
    strippedFn := none, strippedIsNull := false, caller := 1,
    cgCallees := [], nodeIncomplete := false, nodeExternal := false }

/-- A call site whose called value is an inline-asm expression. -/
def asmSite : CTSite :=
  { id := 0, isUndef := false, isAsm := true, calledFunction := none,
    strippedFn := none, strippedIsNull := false, caller := 1,
    cgCallees := [], nodeIncomplete := false, nodeExternal := false }

/-- An indirect call site with one reported callee and clean node flags. -/
def isite : CTSite :=
  { id := 0, isUndef := false, isAsm := false, calledFunction := none,
    strippedFn := none, strippedIsNull := false, caller := 1,
    cgCallees := [2], nodeIncomplete := false, nodeExternal := false }

/-! ## Coarsening: every merge only coarsens the node partition -/

theorem coarser_refl (u : Unif) : Coarser u u :=
  fun _ _ h => h

theorem coarser_trans {w v u : Unif} (h1 : Coarser w v) (h2 : Coarser v u) :
    Coarser w u :=
  fun x y h => h1 x y (h2 x y h)

theorem merge_coarser (u : Unif) (a b : Node) : Coarser (merge u a b) u := by
  intro x y h
  simp only [merge, h]

theorem foldl_coarser {α : Type} (f : Unif → α → Unif)
    (hf : ∀ (v : Unif) (x : α), Coarser (f v x) v) (l : List α) :
    ∀ u : Unif, Coarser (l.foldl f u) u := by
  induction l with
  | nil => intro u; exact coarser_refl u
  | cons x r ih => intro u; exact coarser_trans (ih (f u x)) (hf u x)

theorem mergeInGraph_coarser (M : SteensModule) (u : Unif) (cs : DSCallSite)
    (f : Fn) : Coarser (mergeInGraph M u cs f) u := by
  unfold mergeInGraph
  exact coarser_trans
    (foldl_coarser _ (fun v n => merge_coarser v n cs.vaNode) _ _)
    (coarser_trans
      (foldl_coarser _ (fun (v : Unif) (p : Node × Node) => merge_coarser v p.1 p.2) _ _)
      (coarser_trans (merge_coarser _ _ _) (merge_coarser _ _ _)))

theorem mergeSite_coarser (M : SteensModule) (u : Unif) (cs : DSCallSite)
    (fs : List Fn) : Coarser (mergeSite M u cs fs) u := by
  unfold mergeSite
  refine foldl_coarser _ (fun v f => ?_) _ _
  by_cases hd : M.isDeclaration f
  · simp only [hd, if_true]; exact coarser_refl v
  · simp only [hd, if_false]; exact mergeInGraph_coarser M v cs f

theorem stepU_coarser (M : SteensModule) (u : Unif) : Coarser (stepU M u) u := by
  unfold stepU
  exact foldl_coarser _ (fun v cs => mergeSite_coarser M v cs _) _ _

theorem uAt_succ_coarser (M : SteensModule) (i : Nat) :
    Coarser (uAt M (i + 1)) (uAt M i) :=
  stepU_coarser M (uAt M i)

/-! ## Monotonicity of the computed callee sets -/

theorem mem_fullFunctionSet {M : SteensModule} {u : Unif} {n : Node} {f : Fn} :
    f ∈ fullFunctionSet M u n ↔
      f < M.numFuncs ∧ ∃ a, M.addrNode f = some a ∧ u a = u n := by
  unfold fullFunctionSet
  rw [List.mem_filter, List.mem_range]
  rcases h : M.addrNode f with _ | a <;> simp [h, beq_iff_eq]

theorem eraseNonCallable_eq_filter (M : SteensModule) (cs : DSCallSite) :
    ∀ l : List Fn, eraseNonCallable M cs l = l.filter (M.callable cs) := by
  intro l
  induction l with
  | nil => rfl
  | cons f r ih =>
      by_cases hc : M.callable cs f <;>
        simp [eraseNonCallable, List.filter_cons, hc, ih]

theorem getAllCalleesSrc_mono {M : SteensModule} {u v : Unif}
    (h : Coarser v u) (cs : DSCallSite) :
    ∀ f ∈ getAllCalleesSrc M u cs, f ∈ getAllCalleesSrc M v cs := by
  intro f hf
  unfold getAllCalleesSrc at hf ⊢
  rcases hd : cs.directCallee with _ | g
  · rw [hd] at hf
    rw [eraseNonCallable_eq_filter] at hf ⊢
    rw [List.mem_filter] at hf ⊢
    refine ⟨?_, hf.2⟩
    rcases mem_fullFunctionSet.1 hf.1 with ⟨hlt, a, ha, hclass⟩
    exact mem_fullFunctionSet.2 ⟨hlt, a, ha, h a cs.calleeNode hclass⟩
  · rw [hd] at hf; exact hf

theorem calleesAt_succ_subset (M : SteensModule) (i : Nat) (cs : DSCallSite) :
    calleesAt M i cs ⊆ calleesAt M (i + 1) cs := by
  cases i with
  | zero => exact Finset.empty_subset _
  | succ j =>
      intro f hf
      rw [calleesAt, List.mem_toFinset] at hf ⊢
      exact getAllCalleesSrc_mono (uAt_succ_coarser M j) cs f hf

/-- C2: for every module and every call site, the callee set computed at
iteration i+1 of the Steensgaard fixpoint is a superset of the one computed
at iteration i: no candidate once added is ever dropped. -/
theorem C2_callee_sets_monotone :
    ∀ (M : SteensModule) (i : Nat) (cs : DSCallSite) (f : Fn),
      f ∈ calleesAt M i cs → f ∈ calleesAt M (i + 1) cs :=
  fun M i cs _ hf => calleesAt_succ_subset M i cs hf

/-- Witness for C2 on the direct call site of fp2.ll at iteration 1. -/
theorem C2_callee_sets_monotone_witness :
    (0 : Fn) ∈ calleesAt fp2 1 fp2cs1 ∧ (0 : Fn) ∈ calleesAt fp2 2 fp2cs1 :=
  ⟨by decide, C2_callee_sets_monotone fp2 1 fp2cs1 0 (by decide)⟩

/-! ## The computed callee set agrees with the specified one -/

theorem toFinset_getAllCallees (M : SteensModule) (u : Unif) (cs : DSCallSite) :
    (getAllCalleesSrc M u cs).toFinset = calleeSetSpec M u cs := by
  rcases hd : cs.directCallee with _ | f
  · ext g
    simp [getAllCalleesSrc, calleeSetSpec, hd, eraseNonCallable_eq_filter,
      fullFunctionSet, List.mem_filter, and_assoc, and_comm]
  · by_cases hdecl : M.isDeclaration f <;>
      simp [getAllCalleesSrc, calleeSetSpec, hd, hdecl]

/-- C6: in every iteration of the Steensgaard fixpoint, the candidate callee
set computed for a call site is the singleton of the called function minus
declarations when the site is direct, and the functions of the callee-node
globals list filtered by the functionIsCallable predicate when indirect. -/
theorem C6_callee_set_characterization :
    ∀ (M : SteensModule) (i : Nat) (cs : DSCallSite),
      calleesAt M (i + 1) cs = calleeSetSpec M (uAt M i) cs :=
  fun M i cs => toFinset_getAllCallees M (uAt M i) cs

/-- C1: on the fp2.ll module, the fixpoint loop exits at its third call to
buildCallGraph, and in the final unification state the scalar-map handles of
main mval and foo fval, of main mval2 and main mval, and of call cval and
main mval normalize to the same node. -/
theorem C1_fp2_same_nodes :
    cgListAt fp2 3 = cgListAt fp2 2 ∧
    uAt fp2 2 (fp2scalar .mval) = uAt fp2 2 (fp2scalar .fval) ∧
    uAt fp2 2 (fp2scalar .mval2) = uAt fp2 2 (fp2scalar .mval) ∧
    uAt fp2 2 (fp2scalar .cval) = uAt fp2 2 (fp2scalar .mval) := by
  decide

/-- C9: both pass entry points return false for every input, the LLVM pass
protocol for an analysis that does not modify the module; the embeddings are
pure functions of the module, so the module is untouched by construction. -/
theorem C9_passes_return_false :
    ∀ (M : SteensModule) (E : CTEnv) (ss : List CTSite),
      (steensRunOnModule M).2 = false ∧ (ctfRunOnModule E ss).2 = false :=
  fun _ _ _ => ⟨rfl, rfl⟩

/-! ## Termination of the uncapped fixpoint loop -/

theorem calleesAt_subset_funcUniv (M : SteensModule) (i : Nat) {cs : DSCallSite}
    (hcs : cs ∈ M.sites) : calleesAt M i cs ⊆ funcUniv M := by
  cases i with
  | zero => exact Finset.empty_subset _
  | succ j =>
      intro f hf
      rw [calleesAt, List.mem_toFinset] at hf
      unfold getAllCalleesSrc at hf
      rcases hd : cs.directCallee with _ | g
      · rw [hd] at hf
        rw [eraseNonCallable_eq_filter, List.mem_filter] at hf
        rcases mem_fullFunctionSet.1 hf.1 with ⟨hlt, _, _, _⟩
        exact Finset.mem_union_left _
          (by simpa [List.mem_toFinset, List.mem_range] using hlt)
      · rw [hd] at hf
        by_cases hdecl : M.isDeclaration g
        · simp [hdecl] at hf
        · simp [hdecl] at hf
          subst hf
          refine Finset.mem_union_right _ ?_
          rw [List.mem_toFinset, List.mem_filterMap]
          exact ⟨cs, hcs, hd⟩

theorem cgSize_mono (M : SteensModule) (i : Nat) : cgSize M i ≤ cgSize M (i + 1) :=
  List.sum_le_sum fun cs _ => Finset.card_le_card (calleesAt_succ_subset M i cs)

theorem cgSize_lt (M : SteensModule) (i : Nat)
    (hne : cgListAt M (i + 1) ≠ cgListAt M i) : cgSize M i < cgSize M (i + 1) := by
  have hex : ∃ cs ∈ M.sites, calleesAt M (i + 1) cs ≠ calleesAt M i cs := by
    by_contra hall
    push_neg at hall
    exact hne (List.map_congr_left fun cs h => hall cs h)
  rcases hex with ⟨cs, hcs, hne2⟩
  exact List.sum_lt_sum _ _
    (fun cs2 _ => Finset.card_le_card (calleesAt_succ_subset M i cs2))
    ⟨cs, hcs, Finset.card_lt_card
      (lt_of_le_of_ne (calleesAt_succ_subset M i cs) (Ne.symm hne2))⟩

theorem cgSize_le_bound (M : SteensModule) (i : Nat) :
    cgSize M i ≤ M.sites.length * (funcUniv M).card := by
  have h : ∀ x ∈ M.sites.map fun cs => (calleesAt M i cs).card,
      x ≤ (funcUniv M).card := by
    intro x hx
    rcases List.mem_map.1 hx with ⟨cs, hcs, rfl⟩
    exact Finset.card_le_card (calleesAt_subset_funcUniv M i hcs)
  have h2 := List.sum_le_card_nsmul _ _ h
  simpa [cgSize, smul_eq_mul] using h2

theorem cgSize_ge_iters (M : SteensModule)
    (h : ∀ i, cgListAt M (i + 1) ≠ cgListAt M i) : ∀ i, i ≤ cgSize M i := by
  intro i
  induction i with
  | zero => exact Nat.zero_le _
  | succ j ih =>
      exact Nat.succ_le_of_lt (Nat.lt_of_le_of_lt ih (cgSize_lt M j (h j)))

/-- C3: for every module, the uncapped fixpoint loop of the Steensgaard
driver terminates: at some iteration buildCallGraph recomputes exactly the
callee sets of the previous iteration, reports no change, and the while loop
exits.  The proof is the monotone growth of the callee sets inside the finite
function universe of the module. -/
theorem C3_fixpoint_terminates :
    ∀ M : SteensModule, ∃ i : Nat, cgListAt M (i + 1) = cgListAt M i := by
  intro M
  by_contra hall
  push_neg at hall
  have h1 := cgSize_ge_iters M hall (M.sites.length * (funcUniv M).card + 1)
  have h2 := cgSize_le_bound M (M.sites.length * (funcUniv M).card + 1)
  omega

/-! ## Per-site behavior of the call-target finder -/

theorem mem_csInsert (l : List Nat) (i : Nat) : i ∈ csInsert l i := by
  unfold csInsert
  split
  · next h => exact List.mem_of_elem_eq_true h
  · exact List.mem_append_right _ (List.mem_singleton.2 rfl)

theorem indLookup_indAppend_self (s : CTSite) (fs : List Fn) :
    ∀ m : List (CTSite × List Fn), indLookup m s.id = none →
      indLookup (indAppend m s fs) s.id = some fs := by
  intro m
  induction m with
  | nil => intro _; simp [indAppend, indLookup]
  | cons e r ih =>
      intro h
      rw [indLookup] at h
      by_cases he : e.1.id = s.id
      · rw [if_pos he] at h; cases h
      · rw [if_neg he] at h
        simp [indAppend, he, indLookup, ih h]

theorem mem_foldl_append (E : CTEnv) (l : List Fn) :
    ∀ (init : List Fn) (f : Fn),
      (f ∈ init ∨ ∃ g ∈ l, f ∈ sccInSM E g) →
      f ∈ l.foldl (fun acc g => acc ++ sccInSM E g) init := by
  induction l with
  | nil =>
      intro init f h
      rcases h with h | ⟨g, hg, _⟩
      · exact h
      · cases hg
  | cons x r ih =>
      intro init f h
      apply ih
      rcases h with h | ⟨g, hg, hf⟩
      · exact Or.inl (List.mem_append_left _ h)
      · rcases List.mem_cons.1 hg with rfl | hg2
        · exact Or.inl (List.mem_append_right _ hf)
        · exact Or.inr ⟨g, hg2, hf⟩

theorem mem_indCandidates {E : CTEnv} {s : CTSite} {f : Fn}
    (h : (f ∈ E.scc (E.sccLeader s.caller) ∧ E.inSM f = true) ∨
         (∃ g ∈ s.cgCallees, f ∈ E.scc g ∧ E.inSM f = true)) :
    f ∈ indCandidates E s := by
  unfold indCandidates
  rcases h with ⟨h1, h2⟩ | ⟨g, hg, h1, h2⟩
  · exact List.mem_append_right _ (List.mem_filter.2 ⟨h1, h2⟩)
  · exact List.mem_append_left _
      (mem_foldl_append E _ [] f (Or.inr ⟨g, hg, List.mem_filter.2 ⟨h1, h2⟩⟩))

theorem processSite_indirect_eq (E : CTEnv) (st : CTState) (s : CTSite)
    (hu : s.isUndef = false) (ha : s.isAsm = false)
    (hcf : s.calledFunction = none) (hsf : s.strippedFn = none)
    (hn : s.strippedIsNull = false) (hm : indLookup st.indMap s.id = none) :
    processSite E st s =
      { allSites := st.allSites ++ [s.id],
        dirCall := st.dirCall,
        indCall := st.indCall + 1,
        completeInd := st.completeInd +
          (if !s.nodeIncomplete && !s.nodeExternal &&
              !(indCandidates E s).isEmpty then 1 else 0),
        completeEmpty := st.completeEmpty +
          (if !s.nodeIncomplete && !s.nodeExternal &&
              (indCandidates E s).isEmpty then 1 else 0),
        indMap := indAppend st.indMap s (indCandidates E s),
        completeSites :=
          if !s.nodeIncomplete && !s.nodeExternal &&
              !(indCandidates E s).isEmpty then
            csInsert st.completeSites s.id
          else st.completeSites } := by
  cases hI : s.nodeIncomplete <;> cases hE : s.nodeExternal <;>
    cases hc : (indCandidates E s).isEmpty <;>
      simp [processSite, hu, ha, hcf, hsf, hn, hm, hI, hE, hc]

/-- C5: an indirect call site is inserted into CompleteSites exactly when the
DS node of its called value is neither Incomplete nor External and the
computed candidate list is non-empty; when the node is clean but the list is
empty, the CompleteEmpty counter is incremented instead. -/
theorem C5_indirect_completeness :
    ∀ (E : CTEnv) (st : CTState) (s : CTSite),
      s.isUndef = false → s.isAsm = false →
      s.calledFunction = none → s.strippedFn = none →
      s.strippedIsNull = false →
      indLookup st.indMap s.id = none →
      s.id ∉ st.completeSites →
      ((s.id ∈ (processSite E st s).completeSites ↔
          s.nodeIncomplete = false ∧ s.nodeExternal = false ∧
            indCandidates E s ≠ []) ∧
        (s.nodeIncomplete = false ∧ s.nodeExternal = false ∧
            indCandidates E s = [] →
          (processSite E st s).completeEmpty = st.completeEmpty + 1) ∧
        (¬(s.nodeIncomplete = false ∧ s.nodeExternal = false ∧
            indCandidates E s = []) →
          (processSite E st s).completeEmpty = st.completeEmpty)) := by
  intro E st s hu ha hcf hsf hn hm hcs
  rw [processSite_indirect_eq E st s hu ha hcf hsf hn hm]
  cases hI : s.nodeIncomplete <;> cases hE : s.nodeExternal <;>
    cases hc : (indCandidates E s).isEmpty <;>
      simp_all [List.isEmpty_iff, mem_csInsert]

/-- Witness for C5 on a concrete indirect site with clean node flags and a
non-empty candidate list. -/
theorem C5_indirect_completeness_witness :
    indLookup ct0.indMap isite.id = none ∧ isite.id ∉ ct0.completeSites ∧
      ((isite.id ∈ (processSite cenv ct0 isite).completeSites ↔
          isite.nodeIncomplete = false ∧ isite.nodeExternal = false ∧
            indCandidates cenv isite ≠ []) ∧
        (isite.nodeIncomplete = false ∧ isite.nodeExternal = false ∧
            indCandidates cenv isite = [] →
          (processSite cenv ct0 isite).completeEmpty = ct0.completeEmpty + 1) ∧
        (¬(isite.nodeIncomplete = false ∧ isite.nodeExternal = false ∧
            indCandidates cenv isite = []) →
          (processSite cenv ct0 isite).completeEmpty = ct0.completeEmpty)) :=
  ⟨rfl, by decide,
    C5_indirect_completeness cenv ct0 isite rfl rfl rfl rfl rfl rfl (by decide)⟩

/-- C7: the candidate list recorded for an indirect call site contains every
scalar-map-present function of the SCC of the enclosing caller, in addition
to every scalar-map-present function of the SCC of each callee the DS call
graph reports for the site. -/
theorem C7_caller_scc_included :
    ∀ (E : CTEnv) (st : CTState) (s : CTSite),
      s.isUndef = false → s.isAsm = false →
      s.calledFunction = none → s.strippedFn = none →
      s.strippedIsNull = false →
      indLookup st.indMap s.id = none →
      ∀ f : Fn,
        ((f ∈ E.scc (E.sccLeader s.caller) ∧ E.inSM f = true) ∨
         (∃ g ∈ s.cgCallees, f ∈ E.scc g ∧ E.inSM f = true)) →
        f ∈ (indLookup (processSite E st s).indMap s.id).getD [] := by
  intro E st s hu ha hcf hsf hn hm f hf
  rw [processSite_indirect_eq E st s hu ha hcf hsf hn hm]
  show f ∈ (indLookup (indAppend st.indMap s (indCandidates E s)) s.id).getD []
  rw [indLookup_indAppend_self s (indCandidates E s) st.indMap hm]
  exact mem_indCandidates hf

/-- Witness for C7: the caller of the concrete indirect site is in its own
SCC and lands in the recorded candidate list. -/
theorem C7_caller_scc_included_witness :
    (1 ∈ cenv.scc (cenv.sccLeader isite.caller) ∧ cenv.inSM 1 = true) ∧
      1 ∈ (indLookup (processSite cenv ct0 isite).indMap isite.id).getD [] :=
  ⟨by decide,
    C7_caller_scc_included cenv ct0 isite rfl rfl rfl rfl rfl rfl 1
      (Or.inl (by decide))⟩

/-- C10: a call site whose called value is an inline-asm expression is
skipped: the only state change is its appearance in the visited-site list;
IndMap, CompleteSites and the direct and indirect counters are untouched. -/
theorem C10_inline_asm_skipped :
    ∀ (E : CTEnv) (st : CTState) (s : CTSite),
      s.isAsm = true → s.isUndef = false →
      processSite E st s = { st with allSites := st.allSites ++ [s.id] } := by
  intro E st s ha hu
  simp [processSite, ha, hu]

/-- Witness for C10 on a concrete inline-asm site. -/
theorem C10_inline_asm_skipped_witness :
    asmSite.isAsm = true ∧ asmSite.isUndef = false ∧
      processSite cenv ct0 asmSite =
        { ct0 with allSites := ct0.allSites ++ [asmSite.id] } :=
  ⟨rfl, rfl, C10_inline_asm_skipped cenv ct0 asmSite rfl rfl⟩

/-- Counterexample to C4 as stated: a call site whose called value is undef
is visited but skipped by the finder and never inserted into CompleteSites,
contrary to the claim that null and undef callees are marked complete. -/
theorem C4_undef_not_complete_cex :
    usite.isUndef = true ∧
      (findIndTargets cenv [usite]).allSites = [usite.id] ∧
      usite.id ∉ (findIndTargets cenv [usite]).completeSites := by
  decide

/-- C4 amended: a site whose called value is a concrete function (directly
or after stripping pointer casts) or a null constant is always inserted into
CompleteSites, while a site whose called value is undef is skipped and its
CompleteSites membership is unchanged. -/
theorem C4_direct_and_null_complete :
    ∀ (E : CTEnv) (st : CTState) (s : CTSite),
      (s.isUndef = false → s.isAsm = false →
        (s.calledFunction.isSome = true ∨ s.strippedFn.isSome = true ∨
          s.strippedIsNull = true) →
        s.id ∈ (processSite E st s).completeSites) ∧
      (s.isUndef = true →
        (processSite E st s).completeSites = st.completeSites) := by
  intro E st s
  constructor
  · intro hu ha hd
    rcases hcf : s.calledFunction with _ | f
    · rcases hsf : s.strippedFn with _ | g
      · have hn : s.strippedIsNull = true := by
          rcases hd with h | h | h
          · rw [hcf] at h; simp at h
          · rw [hsf] at h; simp at h
          · exact h
        simpa [processSite, hu, ha, hcf, hsf, hn] using
          mem_csInsert st.completeSites s.id
      · simpa [processSite, hu, ha, hcf, hsf] using
          mem_csInsert st.completeSites s.id
    · rcases hsf : s.strippedFn with _ | g
      · simpa [processSite, hu, ha, hcf, hsf] using
          mem_csInsert st.completeSites s.id
      · simpa [processSite, hu, ha, hcf, hsf] using
          mem_csInsert st.completeSites s.id
  · intro hu
    simp [processSite, hu]

/-- Witness for the amended C4 on a plain direct call site. -/
theorem C4_direct_and_null_complete_witness :
    dsite.isUndef = false ∧ dsite.isAsm = false ∧
      dsite.calledFunction.isSome = true ∧
      dsite.id ∈ (processSite cenv ct0 dsite).completeSites :=
  ⟨rfl, rfl, rfl,
    (C4_direct_and_null_complete cenv ct0 dsite).1 rfl rfl (Or.inl rfl)⟩

/-! ## Closed form of a full call-target run over fresh sites -/

theorem contains_eq_decide (l : List Nat) (i : Nat) :
    l.contains i = decide (i ∈ l) :=
  List.elem_eq_mem i l

theorem csInsert_eq_append {l : List Nat} {i : Nat}
    (h : l.contains i = false) : csInsert l i = l ++ [i] := by
  unfold csInsert
  rw [h]
  simp

theorem indAppend_eq_append {s : CTSite} (fs : List Fn) :
    ∀ {m : List (CTSite × List Fn)}, indLookup m s.id = none →
      indAppend m s fs = m ++ [(s, fs)] := by
  intro m
  induction m with
  | nil => intro _; rfl
  | cons e r ih =>
      intro h
      rw [indLookup] at h
      by_cases he : e.1.id = s.id
      · rw [if_pos he] at h; cases h
      · rw [if_neg he] at h
        simp [indAppend, he, ih h]

theorem indLookup_append_right {i : Nat} :
    ∀ {m : List (CTSite × List Fn)}, indLookup m i = none →
      ∀ m2, indLookup (m ++ m2) i = indLookup m2 i := by
  intro m
  induction m with
  | nil => intro _ m2; rfl
  | cons e r ih =>
      intro h m2
      rw [indLookup] at h
      by_cases he : e.1.id = i
      · rw [if_pos he] at h; cases h
      · rw [if_neg he] at h
        rw [List.cons_append, indLookup, if_neg he]
        exact ih h m2


theorem processSite_skip_eq (E : CTEnv) (st : CTState) (s : CTSite)
    (hsk : skipB s = true) :
    processSite E st s = { st with allSites := st.allSites ++ [s.id] } := by
  cases hu : s.isUndef
  · cases ha : s.isAsm
    · rw [skipB, hu, ha] at hsk; cases hsk
    · simp [processSite, hu, ha]
  · simp [processSite, hu]

theorem processSite_null_eq (E : CTEnv) (st : CTState) (s : CTSite)
    (hu : s.isUndef = false) (ha : s.isAsm = false)
    (hcf : s.calledFunction = none) (hsf : s.strippedFn = none)
    (hn : s.strippedIsNull = true) :
    processSite E st s =
      { st with allSites := st.allSites ++ [s.id],
                dirCall := st.dirCall + 1,
                completeSites := csInsert st.completeSites s.id } := by
  simp [processSite, hu, ha, hcf, hsf, hn]

theorem processSite_direct_eq (E : CTEnv) (st : CTState) (s : CTSite)
    (hu : s.isUndef = false) (ha : s.isAsm = false)
    (hd : s.calledFunction.isSome = true ∨ s.strippedFn.isSome = true) :
    processSite E st s =
      { st with allSites := st.allSites ++ [s.id],
                dirCall := st.dirCall + 1,
                indMap := indAppend st.indMap s [theCF s],
                completeSites := csInsert st.completeSites s.id } := by
  rcases hcf : s.calledFunction with _ | f
  · rcases hsf : s.strippedFn with _ | g
    · rw [hcf] at hd; rw [hsf] at hd; simp at hd
    · simp [processSite, hu, ha, hcf, hsf]
  · rcases hsf : s.strippedFn with _ | g <;> simp [processSite, hu, ha, hcf, hsf]

theorem processSite_closed (E : CTEnv) (st : CTState) (s : CTSite)
    (hm : indLookup st.indMap s.id = none)
    (hc : st.completeSites.contains s.id = false) :
    (processSite E st s).indMap =
      st.indMap ++ (if entering s = true then [(s, entryOf E s)] else []) ∧
    (processSite E st s).completeSites =
      st.completeSites ++ (if completing E s = true then [s.id] else []) := by
  by_cases hsk : skipB s = true
  · rw [processSite_skip_eq E st s hsk]
    constructor <;>
      simp [entering, directB, indirB, nullB, completing, hsk]
  · have hu : s.isUndef = false := by
      revert hsk; unfold skipB; cases s.isUndef <;> simp
    have ha : s.isAsm = false := by
      revert hsk; unfold skipB; cases s.isAsm <;> simp
    rcases hcf : s.calledFunction with _ | f
    · rcases hsf : s.strippedFn with _ | g
      · cases hn : s.strippedIsNull
        · rw [processSite_indirect_eq E st s hu ha hcf hsf hn hm]
          have hind : indirB s = true := by
            simp [indirB, skipB, hu, ha, hcf, hsf, hn]
          have hdir : directB s = false := by
            simp [directB, skipB, hcf, hsf]
          have hnul : nullB s = false := by simp [nullB, hn]
          constructor
          · show indAppend st.indMap s (indCandidates E s) = _
            rw [indAppend_eq_append (indCandidates E s) hm]
            have hent : entryOf E s = indCandidates E s := by
              simp [entryOf, hdir]
            rw [entering, hind, hdir, hent]
            simp
          · show (if !s.nodeIncomplete && !s.nodeExternal &&
                !(indCandidates E s).isEmpty then
                  csInsert st.completeSites s.id
                else st.completeSites) = _
            have hcomp : completing E s =
                (!s.nodeIncomplete && !s.nodeExternal &&
                  !(indCandidates E s).isEmpty) := by
              simp [completing, hdir, hnul, hind]
            rw [hcomp]
            cases hcond : (!s.nodeIncomplete && !s.nodeExternal &&
                !(indCandidates E s).isEmpty)
            · simp [hcond]
            · simp [hcond, csInsert_eq_append hc]
        · rw [processSite_null_eq E st s hu ha hcf hsf hn]
          have he : entering s = false := by
            simp [entering, directB, indirB, skipB, hcf, hsf, hn]
          have hcomp : completing E s = true := by
            simp [completing, nullB, skipB, hu, ha, hcf, hsf, hn]
          constructor
          · simp [he]
          · simp [hcomp, csInsert_eq_append hc]
      · have hd : s.calledFunction.isSome = true ∨ s.strippedFn.isSome = true :=
          Or.inr (by rw [hsf]; rfl)
        rw [processSite_direct_eq E st s hu ha hd]
        have hdir : directB s = true := by
          simp [directB, skipB, hu, ha, hsf]
        have he : entering s = true := by simp [entering, hdir]
        have hent : entryOf E s = [theCF s] := by simp [entryOf, hdir]
        have hcomp : completing E s = true := by simp [completing, hdir]
        constructor
        · show indAppend st.indMap s [theCF s] = _
          rw [indAppend_eq_append [theCF s] hm, he, hent]
          simp
        · show csInsert st.completeSites s.id = _
          rw [csInsert_eq_append hc, hcomp]
          simp
    · have hd : s.calledFunction.isSome = true ∨ s.strippedFn.isSome = true :=
        Or.inl (by rw [hcf]; rfl)
      rw [processSite_direct_eq E st s hu ha hd]
      have hdir : directB s = true := by
        simp [directB, skipB, hu, ha, hcf]
      have he : entering s = true := by simp [entering, hdir]
      have hent : entryOf E s = [theCF s] := by simp [entryOf, hdir]
      have hcomp : completing E s = true := by simp [completing, hdir]
      constructor
      · show indAppend st.indMap s [theCF s] = _
        rw [indAppend_eq_append [theCF s] hm, he, hent]
        simp
      · show csInsert st.completeSites s.id = _
        rw [csInsert_eq_append hc, hcomp]
        simp

theorem findFold_closed (E : CTEnv) :
    ∀ (ss : List CTSite) (st : CTState),
      (∀ s ∈ ss, indLookup st.indMap s.id = none) →
      (∀ s ∈ ss, st.completeSites.contains s.id = false) →
      (ss.map (fun s => s.id)).Nodup →
      (ss.foldl (processSite E) st).indMap =
        st.indMap ++ (ss.filter entering).map (fun s => (s, entryOf E s)) ∧
      (ss.foldl (processSite E) st).completeSites =
        st.completeSites ++ (ss.filter (completing E)).map (fun s => s.id) := by
  intro ss
  induction ss with
  | nil => intro st _ _ _; simp
  | cons s r ih =>
      intro st hm hc hnd
      have hms : indLookup st.indMap s.id = none := hm s (List.mem_cons_self s r)
      have hcs : st.completeSites.contains s.id = false :=
        hc s (List.mem_cons_self s r)
      obtain ⟨hI, hC⟩ := processSite_closed E st s hms hcs
      have hid : s.id ∉ r.map (fun t => t.id) := (List.nodup_cons.1 hnd).1
      have hm2 : ∀ t ∈ r, indLookup (processSite E st s).indMap t.id = none := by
        intro t ht
        have hne : s.id ≠ t.id := fun e => hid (e ▸ List.mem_map_of_mem _ ht)
        rw [hI, indLookup_append_right (hm t (List.mem_cons_of_mem s ht))]
        cases he : entering s
        · simp [indLookup]
        · simp [indLookup, hne]
      have hc2 : ∀ t ∈ r,
          (processSite E st s).completeSites.contains t.id = false := by
        intro t ht
        have hne : s.id ≠ t.id := fun e => hid (e ▸ List.mem_map_of_mem _ ht)
        rw [hC, contains_eq_decide]
        have h1 : t.id ∉ st.completeSites := by
          have h2 := hc t (List.mem_cons_of_mem s ht)
          rw [contains_eq_decide] at h2
          exact of_decide_eq_false h2
        cases he : completing E s
        · simp [h1]
        · simp [h1, Ne.symm hne]
      obtain ⟨g1, g2⟩ := ih (processSite E st s) hm2 hc2 (List.nodup_cons.1 hnd).2
      constructor
      · rw [List.foldl_cons, g1, hI, List.append_assoc]
        congr 1
        rw [List.filter_cons]
        cases he : entering s <;> simp
      · rw [List.foldl_cons, g2, hC, List.append_assoc]
        congr 1
        rw [List.filter_cons]
        cases he : completing E s <;> simp

theorem mem_filter_map_id_iff (p : CTSite → Bool) :
    ∀ ss : List CTSite, (ss.map (fun s => s.id)).Nodup →
      ∀ s ∈ ss, (s.id ∈ (ss.filter p).map (fun t => t.id) ↔ p s = true) := by
  intro ss
  induction ss with
  | nil => intro _ s hs; cases hs
  | cons h r ih =>
      intro hnd s hs
      have hid : h.id ∉ r.map (fun t => t.id) := (List.nodup_cons.1 hnd).1
      have hnd2 := (List.nodup_cons.1 hnd).2
      rcases List.mem_cons.1 hs with rfl | hsr
      · rw [List.filter_cons]
        cases hp : p s
        · simp only [Bool.false_eq_true, if_false]
          constructor
          · intro hmem
            exfalso
            apply hid
            rcases List.mem_map.1 hmem with ⟨t, ht, he⟩
            exact he ▸ List.mem_map_of_mem _ (List.mem_of_mem_filter ht)
          · intro hpt; exact hpt.elim
        · simp
      · have hne : s.id ≠ h.id := fun e => hid (e ▸ List.mem_map_of_mem _ hsr)
        rw [List.filter_cons]
        cases hp : p h
        · simp only [Bool.false_eq_true, if_false]
          exact ih hnd2 s hsr
        · simp only [if_true, List.map_cons, List.mem_cons]
          constructor
          · rintro (he | hmem)
            · exact absurd he hne
            · exact (ih hnd2 s hsr).1 hmem
          · intro hps
            exact Or.inr ((ih hnd2 s hsr).2 hps)

theorem indirB_fields {s : CTSite} (h : indirB s = true) :
    s.calledFunction = none ∧ s.strippedFn = none ∧ s.strippedIsNull = false ∧
      s.isUndef = false ∧ s.isAsm = false := by
  unfold indirB skipB at h
  rcases hcf : s.calledFunction with _ | f <;>
    rcases hsf : s.strippedFn with _ | g <;>
      cases hu : s.isUndef <;> cases ha : s.isAsm <;>
        cases hn : s.strippedIsNull <;>
          simp_all

theorem directB_isSome {s : CTSite} (h : directB s = true) :
    s.calledFunction.isSome = true ∨ s.strippedFn.isSome = true := by
  unfold directB skipB at h
  rcases Bool.and_eq_true_iff.1 h with ⟨_, h2⟩
  exact Bool.or_eq_true_iff.1 h2

theorem printAux (E : CTEnv) (CS : List Nat) :
    ∀ l : List CTSite,
      (∀ s ∈ l, indirB s = true → CS.contains s.id = completing E s) →
      ((l.filter entering).map (fun s => (s, entryOf E s))).filterMap (fun e =>
          if e.1.calledFunction.isSome then none
          else if e.1.strippedFn.isSome then none
          else some { starred := !(CS.contains e.1.id), site := e.1.id,
                      fns := e.2 }) =
        (l.filter indirB).map (lineOf E) := by
  intro l
  induction l with
  | nil => intro _; rfl
  | cons s r ih =>
      intro hstar
      have ihr := ih fun t ht h => hstar t (List.mem_cons_of_mem s ht) h
      rw [List.filter_cons, List.filter_cons]
      cases hin : indirB s
      · cases hent : entering s
        · simp only [Bool.false_eq_true, if_false]
          exact ihr
        · have hdt : directB s = true := by
            have he2 := hent
            unfold entering at he2
            rw [hin] at he2
            simpa using he2
          simp only [if_true, Bool.false_eq_true, if_false, List.map_cons,
            List.filterMap_cons]
          rcases hcfv : s.calledFunction with _ | f
          · rcases directB_isSome hdt with hcfS | hsfS
            · rw [hcfv] at hcfS; cases hcfS
            · simp only [hcfv, Option.isSome_none, Bool.false_eq_true,
                if_false, hsfS, if_true]
              exact ihr
          · simp only [hcfv, Option.isSome_some, if_true]
            exact ihr
      · obtain ⟨hcf, hsf, hn, hu, ha⟩ := indirB_fields hin
        have hent : entering s = true := by simp [entering, hin]
        have hdir : directB s = false := by simp [directB, hcf, hsf]
        have hcomp : completing E s =
            (!s.nodeIncomplete && !s.nodeExternal &&
              !(indCandidates E s).isEmpty) := by
          simp [completing, nullB, hdir, hn, hin]
        have hcontains := hstar s (List.mem_cons_self s r) hin
        simp only [hent, if_true, hin, List.map_cons, List.filterMap_cons,
          hcf, hsf, Option.isSome_none, Bool.false_eq_true, if_false]
        rw [ihr]
        congr 1
        rw [hcontains, hcomp]
        simp [lineOf, entryOf, hdir]

/-- Counterexample to C8 as stated: on a module consisting of a single direct
call site, the finder visits one call site but the report emits no site line
at all, because print skips every IndMap entry whose called value is a
concrete function. -/
theorem C8_one_line_per_site_cex :
    (findIndTargets cenv [dsite]).allSites.length = 1 ∧
      printLines (findIndTargets cenv [dsite]) = [] := by
  decide

/-- C8 amended: the report emits one line for each indirect call site of the
module (direct calls, including ones direct only after stripping casts, are
skipped, as are undef, null and inline-asm callees), and the line of an
indirect site is starred exactly when its completeness test failed. -/
theorem C8_report_indirect_lines :
    ∀ (E : CTEnv) (ss : List CTSite),
      (ss.map (fun s => s.id)).Nodup →
      printLines (findIndTargets E ss) = (ss.filter indirB).map (lineOf E) := by
  intro E ss hnd
  obtain ⟨hI, hC⟩ :=
    findFold_closed E ss ct0 (fun _ _ => rfl) (fun _ _ => rfl) hnd
  rw [show ct0.indMap = [] from rfl, List.nil_append] at hI
  rw [show ct0.completeSites = [] from rfl, List.nil_append] at hC
  have hstar : ∀ s ∈ ss, indirB s = true →
      ((ss.foldl (processSite E) ct0).completeSites).contains s.id =
        completing E s := by
    intro s hs _
    rw [hC, contains_eq_decide]
    have hiff := mem_filter_map_id_iff (completing E) ss hnd s hs
    cases hcp : completing E s
    · apply decide_eq_false
      intro hmem
      have h2 := hiff.1 hmem
      rw [hcp] at h2
      cases h2
    · exact decide_eq_true (hiff.2 hcp)
  unfold printLines findIndTargets
  rw [hI]
  exact printAux E _ ss hstar

/-- Witness for the amended C8 on a one-site module with an indirect call. -/
theorem C8_report_indirect_lines_witness :
    (([isite] : List CTSite).map (fun s => s.id)).Nodup ∧
      printLines (findIndTargets cenv [isite]) =
        (([isite] : List CTSite).filter indirB).map (lineOf cenv) :=
  ⟨by decide, C8_report_indirect_lines cenv [isite] (by decide)⟩
